import Mathlib

/-!
# Verification of the chmpy crystal symmetry core

A shallow embedding, in Lean 4, of the symmetry-operation algebra
(`src/shmolecule/space_group.py`), the unit-cell classification
(`src/shmolecule/unit_cell.py`) and the unit-cell atom generation /
symmetry-unique molecule selection (`src/shmolecule/crystal.py`) of the
chmpy repository, together with proofs and refutations of the testable
properties stated in its specification.

Machine floats are modelled by exact rationals (`ℚ`); `numpy` float
arrays hold integral values everywhere the embedded code paths touch
them, so no rounding behaviour is lost.  Python `%` and `//` on
integers agree with Lean's `%` and `/` on `ℤ` for positive divisors.
-/

namespace Chmpy

/-- A fractional-coordinate 3-vector (one row of a numpy `(N, 3)` array). -/
abbrev Vec3 : Type := Fin 3 → ℚ

/-- `SymmetryOperation` of `space_group.py`: a 3×3 rotation matrix and a
translation vector.  The Python constructor stores `translation % 1`;
the embedding keeps the raw fields and the smart constructor `mkOp`
performs the reduction.  Rotation entries are integral floats in the
source, hence `ℤ` here. -/
structure SymmetryOperation where
  rotation : Fin 3 → Fin 3 → ℤ
  translation : Fin 3 → ℚ

/-- `SymmetryOperation.__init__`: the translation is reduced mod 1
(`self.translation = translation % 1`; numpy `%` on floats is
floor-mod, i.e. `Int.fract`). -/
def mkOp (rot : Fin 3 → Fin 3 → ℤ) (trans : Fin 3 → ℚ) : SymmetryOperation :=
  ⟨rot, fun i => Int.fract (trans i)⟩

/-- `encode_symm_int(rotation, translation)` (space_group.py lines
120–135), with the two digit loops unrolled.  The loop `for i in (2,1,0):
for j in (2,1,0)` accumulates `rotation[i,j] + 1` with the shift
growing from `1` by factors of 3, so entry `(i,j)` carries weight
`3^(8-(3i+j))`; likewise translation component `i` (as rounded
twelfths) carries weight `12^(2-i)`.  `np.round` on the integral values
reached by the embedded code paths agrees with `round`. -/
def encode_symm_int (rot : Fin 3 → Fin 3 → ℤ) (trans : Fin 3 → ℚ) : ℤ :=
  (rot 0 0 + 1) * 6561 + (rot 0 1 + 1) * 2187 + (rot 0 2 + 1) * 729 +
    (rot 1 0 + 1) * 243 + (rot 1 1 + 1) * 81 + (rot 1 2 + 1) * 27 +
    (rot 2 0 + 1) * 9 + (rot 2 1 + 1) * 3 + (rot 2 2 + 1) +
    (round (trans 0 * 12) * 144 + round (trans 1 * 12) * 12 + round (trans 2 * 12)) * 19683

/-- `decode_symm_int(coded_integer)` (space_group.py lines 93–117), the
digit-extraction loops unrolled into closed-form shifts.  Python `%`
and `//` for the positive divisors used here coincide with `%` and `/`
on `ℤ`. -/
def decode_symm_int (code : ℤ) : (Fin 3 → Fin 3 → ℤ) × (Fin 3 → ℚ) :=
  (fun i j =>
      let shift : ℤ := 3 ^ (8 - (3 * i.val + j.val))
      ((code % 19683) % (shift * 3)) / shift - 1,
   fun i =>
      let shift : ℤ := 12 ^ (2 - i.val)
      ((((code / 19683) % (shift * 12)) / shift : ℤ) : ℚ) / 12)

/-- `SymmetryOperation.integer_code`: the cached canonical encoding. -/
def SymmetryOperation.integer_code (s : SymmetryOperation) : ℤ :=
  encode_symm_int s.rotation s.translation

/-- Rotation entries restricted to `{-1, 0, 1}` (crystallographic). -/
abbrev ValidRot (rot : Fin 3 → Fin 3 → ℤ) : Prop :=
  ∀ i j, rot i j = -1 ∨ rot i j = 0 ∨ rot i j = 1

/-- Each translation component is a twelfth in `[0, 1)`. -/
abbrev ValidTrans (trans : Fin 3 → ℚ) : Prop :=
  ∀ i, ∃ k : Fin 12, trans i = (k : ℚ) / 12

/-- A crystallographically valid operation: rotation entries in
`{-1,0,1}` and translation components twelfths in `[0,1)`. -/
abbrev SymmetryOperation.Valid (s : SymmetryOperation) : Prop :=
  ValidRot s.rotation ∧ ValidTrans s.translation

/-- The duodecimal numerators that occur in crystallographic
translations (spec §3 and docstring of `decode_symm_int`). -/
def crystallographicNumerators : Finset ℕ := {0, 2, 3, 4, 6, 8, 9, 10}

theorem round_twelfth (k : ℤ) : round (((k : ℚ) / 12) * 12) = k := by
  have h : ((k : ℚ) / 12) * 12 = (k : ℚ) := by ring
  rw [h, round_intCast]

/-- Scalar digit extraction behind `decode_symm_int ∘ encode_symm_int`:
every base-3 rotation digit and base-12 translation digit of the packed
integer is recovered. -/
theorem pack_unpack (a00 a01 a02 a10 a11 a12 a20 a21 a22 b0 b1 b2 code : ℤ)
    (h00 : -1 ≤ a00 ∧ a00 ≤ 1) (h01 : -1 ≤ a01 ∧ a01 ≤ 1) (h02 : -1 ≤ a02 ∧ a02 ≤ 1)
    (h10 : -1 ≤ a10 ∧ a10 ≤ 1) (h11 : -1 ≤ a11 ∧ a11 ≤ 1) (h12 : -1 ≤ a12 ∧ a12 ≤ 1)
    (h20 : -1 ≤ a20 ∧ a20 ≤ 1) (h21 : -1 ≤ a21 ∧ a21 ≤ 1) (h22 : -1 ≤ a22 ∧ a22 ≤ 1)
    (hb0 : 0 ≤ b0 ∧ b0 < 12) (hb1 : 0 ≤ b1 ∧ b1 < 12) (hb2 : 0 ≤ b2 ∧ b2 < 12)
    (hc : code = (a00 + 1) * 6561 + (a01 + 1) * 2187 + (a02 + 1) * 729 +
      (a10 + 1) * 243 + (a11 + 1) * 81 + (a12 + 1) * 27 +
      (a20 + 1) * 9 + (a21 + 1) * 3 + (a22 + 1) +
      (b0 * 144 + b1 * 12 + b2) * 19683) :
    (((code % 19683) % (6561 * 3)) / 6561 - 1 = a00 ∧
     ((code % 19683) % (2187 * 3)) / 2187 - 1 = a01 ∧
     ((code % 19683) % (729 * 3)) / 729 - 1 = a02 ∧
     ((code % 19683) % (243 * 3)) / 243 - 1 = a10 ∧
     ((code % 19683) % (81 * 3)) / 81 - 1 = a11 ∧
     ((code % 19683) % (27 * 3)) / 27 - 1 = a12 ∧
     ((code % 19683) % (9 * 3)) / 9 - 1 = a20 ∧
     ((code % 19683) % (3 * 3)) / 3 - 1 = a21 ∧
     ((code % 19683) % (1 * 3)) / 1 - 1 = a22) ∧
    (((code / 19683) % (144 * 12)) / 144 = b0 ∧
     ((code / 19683) % (12 * 12)) / 12 = b1 ∧
     ((code / 19683) % (1 * 12)) / 1 = b2) := by
  subst hc
  omega

/-- Core round-trip: decoding the encoding recovers the rotation and
translation exactly, for any rotation with entries in `[-1,1]` and any
twelfth translation with numerator in `[0,12)`. -/
theorem decode_encode_aux (rot : Fin 3 → Fin 3 → ℤ) (b : Fin 3 → ℤ)
    (hr : ∀ i j, -1 ≤ rot i j ∧ rot i j ≤ 1) (hb : ∀ i, 0 ≤ b i ∧ b i < 12) :
    decode_symm_int (encode_symm_int rot (fun i => (b i : ℚ) / 12)) =
      (rot, fun i => (b i : ℚ) / 12) := by
  have hcode : encode_symm_int rot (fun i => (b i : ℚ) / 12) =
      (rot 0 0 + 1) * 6561 + (rot 0 1 + 1) * 2187 + (rot 0 2 + 1) * 729 +
      (rot 1 0 + 1) * 243 + (rot 1 1 + 1) * 81 + (rot 1 2 + 1) * 27 +
      (rot 2 0 + 1) * 9 + (rot 2 1 + 1) * 3 + (rot 2 2 + 1) +
      (b 0 * 144 + b 1 * 12 + b 2) * 19683 := by
    unfold encode_symm_int
    rw [round_twelfth, round_twelfth, round_twelfth]
  rw [hcode]
  have H := pack_unpack (rot 0 0) (rot 0 1) (rot 0 2) (rot 1 0) (rot 1 1) (rot 1 2)
    (rot 2 0) (rot 2 1) (rot 2 2) (b 0) (b 1) (b 2) _
    (hr 0 0) (hr 0 1) (hr 0 2) (hr 1 0) (hr 1 1) (hr 1 2)
    (hr 2 0) (hr 2 1) (hr 2 2) (hb 0) (hb 1) (hb 2) rfl
  refine Prod.ext ?_ ?_
  · funext i j
    fin_cases i <;> fin_cases j
    · exact H.1.1
    · exact H.1.2.1
    · exact H.1.2.2.1
    · exact H.1.2.2.2.1
    · exact H.1.2.2.2.2.1
    · exact H.1.2.2.2.2.2.1
    · exact H.1.2.2.2.2.2.2.1
    · exact H.1.2.2.2.2.2.2.2.1
    · exact H.1.2.2.2.2.2.2.2.2
  · funext i
    fin_cases i
    · exact congrArg (fun z : ℤ => (z : ℚ) / 12) H.2.1
    · exact congrArg (fun z : ℤ => (z : ℚ) / 12) H.2.2.1
    · exact congrArg (fun z : ℤ => (z : ℚ) / 12) H.2.2.2

/-- C1: for every `SymmetryOperation` whose rotation has entries in
`{-1,0,1}` and whose translation components are twelfths with
numerators in `{0,2,3,4,6,8,9,10}`, `decode_symm_int` composed with
`encode_symm_int` returns exactly the original rotation matrix and
translation vector. -/
theorem decode_encode_roundtrip (rot : Fin 3 → Fin 3 → ℤ) (trans : Fin 3 → ℚ)
    (hr : ValidRot rot)
    (ht : ∀ i, ∃ k : ℕ, k ∈ crystallographicNumerators ∧ trans i = (k : ℚ) / 12) :
    decode_symm_int (encode_symm_int rot trans) = (rot, trans) := by
  choose k hmem hval using ht
  have htr : trans = fun i => ((k i : ℤ) : ℚ) / 12 := by
    funext i
    rw [hval i]
    norm_num
  rw [htr]
  refine decode_encode_aux rot (fun i => (k i : ℤ)) ?_ ?_
  · intro i j
    rcases hr i j with h | h | h <;> omega
  · intro i
    have hm := hmem i
    simp only [crystallographicNumerators, Finset.mem_insert, Finset.mem_singleton] at hm
    show (0 : ℤ) ≤ (k i : ℤ) ∧ ((k i : ℤ)) < 12
    omega

/-- The identity rotation matrix. -/
def idRot : Fin 3 → Fin 3 → ℤ := fun i j => if i = j then 1 else 0

/-- `SymmetryOperation.identity()`: the operation decoded from the
sentinel integer 16484, i.e. identity rotation with zero translation
(`identity_decodes` below checks the decoding). -/
def identityOp : SymmetryOperation := ⟨idRot, fun _ => 0⟩

theorem identity_decodes :
    decode_symm_int 16484 = (identityOp.rotation, identityOp.translation) :=
  of_decide_eq_true (by with_unfolding_all rfl)

/-- Witness for C1 at the classic body-centering input: identity
rotation with translation `(1/2, 1/2, 1/2)` (numerator 6). -/
theorem decode_encode_roundtrip_witness :
    decode_symm_int (encode_symm_int idRot (fun _ => 1 / 2)) = (idRot, fun _ => 1 / 2) :=
  decode_encode_roundtrip idRot (fun _ => 1 / 2) (by decide)
    (fun _ => ⟨6, by decide, by norm_num⟩)


/-! ## Symmetry-operation combinators and canonical encoding -/

/-- `SymmetryOperation.__add__`: a new operation with the same rotation
and the translation shifted by `t`, reduced mod 1 by the constructor. -/
def SymmetryOperation.addT (s : SymmetryOperation) (t : Vec3) : SymmetryOperation :=
  mkOp s.rotation (fun i => s.translation i + t i)

/-- `SymmetryOperation.inverted()`: negates both rotation and
translation (the constructor reduces the translation mod 1). -/
def SymmetryOperation.inverted (s : SymmetryOperation) : SymmetryOperation :=
  mkOp (fun i j => -s.rotation i j) (fun i => -s.translation i)

/-- `SymmetryOperation.is_identity()`: compares the canonical integer
code with the sentinel 16484. -/
def SymmetryOperation.is_identity (s : SymmetryOperation) : Bool :=
  s.integer_code == 16484

/-- The canonical codes of a list of operations.  Python's `in` /
`==` on `SymmetryOperation` compare `integer_code`, so all membership
tests of the algorithms below go through this list. -/
def codesOf (l : List SymmetryOperation) : List ℤ :=
  l.map SymmetryOperation.integer_code

/-- `LATTICE_TYPE_TRANSLATIONS` (space_group.py lines 29–37), keyed by
`abs(lattice_type)`.  Keys outside `{1,…,7}` raise `KeyError` in
Python; they are unreachable under the hypotheses used below. -/
def latticeTranslations : ℕ → List Vec3
  | 1 => []
  | 2 => [![1/2, 1/2, 1/2]]
  | 3 => [![2/3, 1/3, 1/3], ![1/3, 2/3, 2/3]]
  | 4 => [![0, 1/2, 1/2], ![1/2, 0, 1/2], ![1/2, 1/2, 0]]
  | 5 => [![0, 1/2, 1/2]]
  | 6 => [![1/2, 0, 1/2]]
  | 7 => [![1/2, 1/2, 0]]
  | _ => []

/-- The state of the caller's `reduced_symops` list after
`expanded_symmetry_list` returns: the function appends
`SymmetryOperation.identity()` to its argument in place when no
element equals it (by canonical code), else leaves it unchanged. -/
def expandedMutatedInput (reduced : List SymmetryOperation) : List SymmetryOperation :=
  if identityOp.integer_code ∈ codesOf reduced then reduced else reduced ++ [identityOp]

/-- `expanded_symmetry_list(reduced_symops, lattice_type)`
(space_group.py lines 224–246): ensure the identity is present, append
every centering translate of every operation, then, iff
`lattice_type > 0`, append the inversions of everything generated. -/
def expanded_symmetry_list (reduced : List SymmetryOperation) (latt : ℤ) :
    List SymmetryOperation :=
  let translations := latticeTranslations latt.natAbs
  let rsymops := expandedMutatedInput reduced
  let full := rsymops.flatMap (fun s => s :: translations.map (fun t => s.addT t))
  if 0 < latt then full ++ full.map SymmetryOperation.inverted else full

/-- The `while symops_to_process:` loop of `reduced_symmetry_list`:
pops candidates from the front in the order the caller supplied,
skipping a candidate when it (or, with inversion, its inverse, or a
centering translate of it or that translate's inverse) is already
present in the accumulated reduced list, else appending it. -/
def reduceGo (inversion : Bool) (translations : List Vec3) :
    List SymmetryOperation → List SymmetryOperation → List SymmetryOperation
  | [], red => red
  | s :: rest, red =>
    if s.integer_code ∈ codesOf red then
      reduceGo inversion translations rest red
    else if inversion = true ∧ s.inverted.integer_code ∈ codesOf red then
      reduceGo inversion translations rest red
    else if ∃ t ∈ translations, (inversion = true ∧
        ((s.addT t).inverted.integer_code ∈ codesOf red)) ∨
        (s.addT t).integer_code ∈ codesOf red then
      reduceGo inversion translations rest red
    else
      reduceGo inversion translations rest (red ++ [s])

/-- `reduced_symmetry_list(full_symops, lattice_type)` (space_group.py
lines 249–278).  Note the source computes
`symop_codes = sorted(x.integer_code for x in full_symops)` and never
uses it: the candidates are processed in the order of the input list,
not in ascending canonical-code order. -/
def reduced_symmetry_list (full : List SymmetryOperation) (latt : ℤ) :
    List SymmetryOperation :=
  reduceGo (decide (0 < latt)) (latticeTranslations latt.natAbs) full [identityOp]

/-! ## C10: `expanded_symmetry_list` mutates its argument -/

/-- C10: `expanded_symmetry_list` mutates its `reduced_symops`
argument: an input list not containing the identity operation has the
identity appended to it by the call; an input list already containing
the identity is left unchanged. -/
theorem expanded_mutates_input (l : List SymmetryOperation) :
    (identityOp.integer_code ∉ codesOf l → expandedMutatedInput l = l ++ [identityOp]) ∧
    (identityOp.integer_code ∈ codesOf l → expandedMutatedInput l = l) := by
  constructor <;> intro h <;> simp [expandedMutatedInput, h]

/-- The inversion centre `-x,-y,-z` (rotation `-I`, zero translation):
a convenient concrete non-identity operation. -/
def negIdOp : SymmetryOperation := ⟨fun i j => if i = j then -1 else 0, fun _ => 0⟩

/-- Witness for C10 at concrete inputs: `[negIdOp]` (no identity) gains
an appended identity, `[identityOp]` is left unchanged. -/
theorem expanded_mutates_input_witness :
    expandedMutatedInput [negIdOp] = [negIdOp] ++ [identityOp] ∧
    expandedMutatedInput [identityOp] = [identityOp] :=
  ⟨(expanded_mutates_input [negIdOp]).1 (of_decide_eq_true (by with_unfolding_all rfl)),
   (expanded_mutates_input [identityOp]).2 (of_decide_eq_true (by with_unfolding_all rfl))⟩

/-! ## C3: the candidate processing order of `reduced_symmetry_list` -/

/-- A diagonal rotation matrix. -/
def diagRot (a b c : ℤ) : Fin 3 → Fin 3 → ℤ :=
  fun i j => if i = j then ![a, b, c] i else 0

/-- The two-fold rotation `-x,-y,z`. -/
def opA : SymmetryOperation := ⟨diagRot (-1) (-1) 1, fun _ => 0⟩

/-- The mirror `x,y,-z`, which is `opA.inverted()` up to code. -/
def opB : SymmetryOperation := ⟨diagRot 1 1 (-1), fun _ => 0⟩

/-- C3 (failing input): `reduced_symmetry_list` processes candidates in
the order of the input list — the `sorted` canonical codes computed on
line 252 of space_group.py are never used — so for the same *set*
`{opA, opB}` (with `opB` code-equal to `opA.inverted()`) and
centrosymmetric lattice code `latt = 1`, the two supply orders yield
different outputs, refuting both the ascending-code processing order
and the claimed order-independence. -/
theorem reduced_symmetry_list_order_dependent :
    (codesOf [opA, opB]).toFinset = (codesOf [opB, opA]).toFinset ∧
    (codesOf (reduced_symmetry_list [opA, opB] 1)).toFinset ≠
      (codesOf (reduced_symmetry_list [opB, opA] 1)).toFinset :=
  of_decide_eq_true (by with_unfolding_all rfl)

/-! ## C7: the identity sentinel -/

theorem decode_integer_code (s : SymmetryOperation) (hs : s.Valid) :
    decode_symm_int s.integer_code = (s.rotation, s.translation) := by
  choose k hk using hs.2
  have h2 : s.translation = fun i => ((k i : ℤ) : ℚ) / 12 := by
    funext i
    rw [hk i]
    norm_num
  have hb : ∀ i, (0 : ℤ) ≤ (k i : ℤ) ∧ ((k i : ℤ)) < 12 := by
    intro i
    have := (k i).isLt
    omega
  have hr : ∀ i j, -1 ≤ s.rotation i j ∧ s.rotation i j ≤ 1 := by
    intro i j
    rcases hs.1 i j with h | h | h <;> omega
  calc decode_symm_int s.integer_code
      = decode_symm_int (encode_symm_int s.rotation (fun i => ((k i : ℤ) : ℚ) / 12)) := by
        unfold SymmetryOperation.integer_code
        rw [h2]
    _ = (s.rotation, fun i => ((k i : ℤ) : ℚ) / 12) :=
        decode_encode_aux s.rotation (fun i => (k i : ℤ)) hr hb
    _ = (s.rotation, s.translation) := by rw [← h2]

/-- Canonical codes are injective on valid operations: two operations
that Python's `__eq__` deems equal have identical rotation and
translation. -/
theorem integer_code_injective {s r : SymmetryOperation} (hs : s.Valid) (hr : r.Valid)
    (h : s.integer_code = r.integer_code) :
    s.rotation = r.rotation ∧ s.translation = r.translation := by
  have h1 := decode_integer_code s hs
  have h2 := decode_integer_code r hr
  rw [h, h2] at h1
  exact ⟨(congrArg Prod.fst h1).symm, (congrArg Prod.snd h1).symm⟩

/-- C7: the canonical integer encoding of the identity operation is
16484; `SymmetryOperation.identity().is_identity()` is true; and every
valid operation other than the identity has `is_identity() = false`. -/
theorem identity_sentinel :
    identityOp.integer_code = 16484 ∧
    identityOp.is_identity = true ∧
    ∀ rot trans, (SymmetryOperation.mk rot trans).Valid →
      ¬(rot = identityOp.rotation ∧ trans = identityOp.translation) →
      (SymmetryOperation.mk rot trans).is_identity = false := by
  refine ⟨of_decide_eq_true (by with_unfolding_all rfl),
    of_decide_eq_true (by with_unfolding_all rfl), ?_⟩
  intro rot trans hv hne
  by_contra h
  have hid : (SymmetryOperation.mk rot trans).is_identity = true := by
    revert h
    cases (SymmetryOperation.mk rot trans).is_identity <;> simp
  have hcode : (SymmetryOperation.mk rot trans).integer_code = identityOp.integer_code := by
    have : (SymmetryOperation.mk rot trans).integer_code = 16484 := by
      simpa [SymmetryOperation.is_identity] using hid
    rw [this]
    exact (of_decide_eq_true (by with_unfolding_all rfl) :
      (16484 : ℤ) = identityOp.integer_code)
  have hidv : identityOp.Valid := by
    constructor
    · intro i j
      by_cases hij : i = j <;> simp [identityOp, idRot, hij]
    · intro i
      exact ⟨0, by simp [identityOp]⟩
  exact hne (integer_code_injective hv hidv hcode)

/-! ## Mod-1 (`Int.fract`) algebra used by the expansion/reduction proofs -/

theorem fract_fract_add (x y : ℚ) : Int.fract (Int.fract x + y) = Int.fract (x + y) := by
  have h : Int.fract x + y = x + y - (⌊x⌋ : ℤ) := by
    unfold Int.fract
    ring
  rw [h, Int.fract_sub_int]

theorem fract_neg_fract (x : ℚ) : Int.fract (-Int.fract x) = Int.fract (-x) := by
  have h : -Int.fract x = (⌊x⌋ : ℤ) + -x := by
    unfold Int.fract
    ring
  rw [h, Int.fract_int_add]

theorem fract_twelfth (k : ℤ) : Int.fract ((k : ℚ) / 12) = ((k % 12 : ℤ) : ℚ) / 12 := by
  have hk : (k : ℚ) = 12 * ((k / 12 : ℤ) : ℚ) + ((k % 12 : ℤ) : ℚ) := by
    exact_mod_cast (Int.ediv_add_emod k 12).symm
  have hsplit : (k : ℚ) / 12 = ((k / 12 : ℤ) : ℚ) + ((k % 12 : ℤ) : ℚ) / 12 := by
    rw [hk]
    ring
  have hlo : (0 : ℤ) ≤ k % 12 := Int.emod_nonneg k (by norm_num)
  have hhi : k % 12 < 12 := Int.emod_lt_of_pos k (by norm_num)
  rw [hsplit, Int.fract_int_add, Int.fract_eq_self.mpr ?_]
  constructor
  · positivity
  · have : ((k % 12 : ℤ) : ℚ) < 12 := by exact_mod_cast hhi
    linarith

/-- `ValidTrans` via integer numerators, the form the algebra uses. -/
theorem validTrans_int {trans : Fin 3 → ℚ} (h : ValidTrans trans) (i : Fin 3) :
    ∃ k : ℤ, 0 ≤ k ∧ k < 12 ∧ trans i = (k : ℚ) / 12 := by
  obtain ⟨k, hk⟩ := h i
  exact ⟨(k : ℕ), by positivity, by exact_mod_cast k.isLt, by rw [hk]; norm_num⟩

theorem validTrans_of_int {trans : Fin 3 → ℚ}
    (h : ∀ i, ∃ k : ℤ, 0 ≤ k ∧ k < 12 ∧ trans i = (k : ℚ) / 12) : ValidTrans trans := by
  intro i
  obtain ⟨k, hk0, hk12, hk⟩ := h i
  refine ⟨⟨k.toNat, by omega⟩, ?_⟩
  rw [hk]
  congr 1
  exact (by exact_mod_cast congrArg (Int.cast : ℤ → ℚ) (Int.toNat_of_nonneg hk0) :
    ((k.toNat : ℕ) : ℚ) = (k : ℚ)).symm

theorem validTrans_mem_Ico {trans : Fin 3 → ℚ} (h : ValidTrans trans) (i : Fin 3) :
    0 ≤ trans i ∧ trans i < 1 := by
  obtain ⟨k, hk0, hk12, hk⟩ := validTrans_int h i
  constructor
  · rw [hk]
    positivity
  · rw [hk]
    have : ((k : ℤ) : ℚ) < 12 := by exact_mod_cast hk12
    linarith

theorem validTrans_fract {trans : Fin 3 → ℚ} (h : ValidTrans trans) (i : Fin 3) :
    Int.fract (trans i) = trans i :=
  Int.fract_eq_self.mpr (validTrans_mem_Ico h i)

/-- A lattice-centering-style translation vector: all components
twelfths in `[0, 1)`. -/
abbrev TwelfthVec (t : Vec3) : Prop := ∀ i, ∃ k : Fin 12, t i = (k : ℚ) / 12

theorem addT_valid {s : SymmetryOperation} (hs : s.Valid) {t : Vec3}
    (ht : TwelfthVec t) : (s.addT t).Valid := by
  refine ⟨hs.1, validTrans_of_int fun i => ?_⟩
  obtain ⟨a, _, _, ha⟩ := validTrans_int hs.2 i
  obtain ⟨b, _, _, hb⟩ := validTrans_int ht i
  refine ⟨(a + b) % 12, Int.emod_nonneg _ (by norm_num), Int.emod_lt_of_pos _ (by norm_num), ?_⟩
  show Int.fract (s.translation i + t i) = _
  rw [ha, hb, div_add_div_same, ← Int.cast_add, fract_twelfth]

theorem inverted_valid {s : SymmetryOperation} (hs : s.Valid) : s.inverted.Valid := by
  refine ⟨fun i j => ?_, validTrans_of_int fun i => ?_⟩
  · rcases hs.1 i j with h | h | h <;>
      simp [SymmetryOperation.inverted, mkOp, h]
  · obtain ⟨a, ha0, ha12, ha⟩ := validTrans_int hs.2 i
    refine ⟨(-a) % 12, Int.emod_nonneg _ (by norm_num), Int.emod_lt_of_pos _ (by norm_num), ?_⟩
    show Int.fract (-s.translation i) = _
    rw [ha, show -(((a : ℤ) : ℚ) / 12) = ((-a : ℤ) : ℚ) / 12 by push_cast; ring, fract_twelfth]

/-- Code-equal valid operations are equal as structures. -/
theorem eq_of_code_eq {s r : SymmetryOperation} (hs : s.Valid) (hr : r.Valid)
    (h : s.integer_code = r.integer_code) : s = r := by
  obtain ⟨hrot, htr⟩ := integer_code_injective hs hr h
  cases s
  cases r
  simp only at hrot htr
  rw [hrot, htr]

theorem identityOp_valid : identityOp.Valid := by
  constructor
  · intro i j
    by_cases hij : i = j <;> simp [identityOp, idRot, hij]
  · intro i
    exact ⟨0, by simp [identityOp]⟩

/-- Double inversion is the identity on operations with reduced
translation (`fract τ = τ`). -/
theorem inverted_inverted {s : SymmetryOperation} (hs : ValidTrans s.translation) :
    s.inverted.inverted = s := by
  obtain ⟨rot, τ⟩ := s
  simp only [SymmetryOperation.inverted, mkOp, SymmetryOperation.mk.injEq]
  constructor
  · funext i j
    ring
  · funext i
    rw [fract_neg_fract, neg_neg]
    exact validTrans_fract hs i

/-- Adding `t` then a mod-1 inverse `u` of `t` returns the original
operation (translation reduced). -/
theorem addT_addT_cancel {s : SymmetryOperation} (hs : ValidTrans s.translation)
    {t u : Vec3} (htu : ∀ i, Int.fract (t i + u i) = 0) :
    (s.addT t).addT u = s := by
  obtain ⟨rot, τ⟩ := s
  simp only [SymmetryOperation.addT, mkOp, SymmetryOperation.mk.injEq, true_and]
  funext i
  have h1 : Int.fract (Int.fract (τ i + t i) + u i) = Int.fract (τ i + t i + u i) :=
    fract_fract_add _ _
  have h2 : t i + u i = ((⌊t i + u i⌋ : ℤ) : ℚ) := by
    have := htu i
    unfold Int.fract at this
    linarith
  show Int.fract (Int.fract (τ i + t i) + u i) = τ i
  rw [h1, show τ i + t i + u i = τ i + ((⌊t i + u i⌋ : ℤ) : ℚ) by rw [← h2]; ring,
    Int.fract_add_int]
  exact validTrans_fract hs i

/-- The inversion of a `t`-translate of the inversion of a
`t`-translate is the original operation (translation reduced). -/
theorem inv_addT_inv {s : SymmetryOperation} (hs : ValidTrans s.translation) (t : Vec3) :
    (((s.addT t).inverted).addT t).inverted = s := by
  obtain ⟨rot, τ⟩ := s
  simp only [SymmetryOperation.addT, SymmetryOperation.inverted, mkOp,
    SymmetryOperation.mk.injEq]
  constructor
  · funext i j
    ring
  · funext i
    show Int.fract (-Int.fract (Int.fract (-Int.fract (τ i + t i)) + t i)) = τ i
    rw [fract_fract_add, fract_neg_fract,
      show -(-Int.fract (τ i + t i) + t i) = Int.fract (τ i + t i) + -t i by ring,
      fract_fract_add, show τ i + t i + -t i = τ i by ring]
    exact validTrans_fract hs i

/-! ## C2: reduction followed by expansion preserves the code set -/

/-- The skip conditions of the `while` loop of `reduced_symmetry_list`
for candidate `s` against an accumulated reduced list `red`. -/
def SkipCond (inversion : Bool) (translations : List Vec3)
    (red : List SymmetryOperation) (s : SymmetryOperation) : Prop :=
  s.integer_code ∈ codesOf red ∨
  (inversion = true ∧ s.inverted.integer_code ∈ codesOf red) ∨
  ∃ t ∈ translations, (inversion = true ∧
      ((s.addT t).inverted.integer_code ∈ codesOf red)) ∨
    (s.addT t).integer_code ∈ codesOf red

theorem reduceGo_mem (inversion : Bool) (translations : List Vec3) :
    ∀ pending red x, x ∈ reduceGo inversion translations pending red →
      x ∈ red ∨ x ∈ pending := by
  intro pending
  induction pending with
  | nil =>
    intro red x hx
    exact Or.inl hx
  | cons s rest ih =>
    intro red x hx
    rw [reduceGo] at hx
    split_ifs at hx with h1 h2 h3
    · rcases ih red x hx with h | h
      · exact Or.inl h
      · exact Or.inr (List.mem_cons_of_mem _ h)
    · rcases ih red x hx with h | h
      · exact Or.inl h
      · exact Or.inr (List.mem_cons_of_mem _ h)
    · rcases ih red x hx with h | h
      · exact Or.inl h
      · exact Or.inr (List.mem_cons_of_mem _ h)
    · rcases ih _ x hx with h | h
      · rcases List.mem_append.mp h with h' | h'
        · exact Or.inl h'
        · exact Or.inr (List.mem_cons.mpr (Or.inl (List.mem_singleton.mp h')))
      · exact Or.inr (List.mem_cons_of_mem _ h)

theorem reduceGo_extends (inversion : Bool) (translations : List Vec3) :
    ∀ pending red x, x ∈ red → x ∈ reduceGo inversion translations pending red := by
  intro pending
  induction pending with
  | nil =>
    intro red x hx
    exact hx
  | cons s rest ih =>
    intro red x hx
    rw [reduceGo]
    split_ifs with h1 h2 h3
    · exact ih red x hx
    · exact ih red x hx
    · exact ih red x hx
    · exact ih _ x (List.mem_append.mpr (Or.inl hx))

theorem code_mem_mono {c : ℤ} {red R : List SymmetryOperation}
    (hsub : ∀ y ∈ red, y ∈ R) (h : c ∈ codesOf red) : c ∈ codesOf R := by
  obtain ⟨y, hy, hyc⟩ := List.mem_map.mp h
  exact List.mem_map.mpr ⟨y, hsub y hy, hyc⟩

theorem skipCond_mono {inversion translations} {red R : List SymmetryOperation}
    {s : SymmetryOperation} (hsub : ∀ y ∈ red, y ∈ R)
    (h : SkipCond inversion translations red s) : SkipCond inversion translations R s := by
  rcases h with h | h | ⟨t, ht, h⟩
  · exact Or.inl (code_mem_mono hsub h)
  · exact Or.inr (Or.inl ⟨h.1, code_mem_mono hsub h.2⟩)
  · refine Or.inr (Or.inr ⟨t, ht, ?_⟩)
    rcases h with h | h
    · exact Or.inl ⟨h.1, code_mem_mono hsub h.2⟩
    · exact Or.inr (code_mem_mono hsub h)

/-- Every processed candidate is either skippable against the final
reduced list or a member of it. -/
theorem reduceGo_processed (inversion : Bool) (translations : List Vec3) :
    ∀ pending red s, s ∈ pending →
      SkipCond inversion translations (reduceGo inversion translations pending red) s ∨
      s ∈ reduceGo inversion translations pending red := by
  intro pending
  induction pending with
  | nil =>
    intro red s hs
    exact absurd hs (List.not_mem_nil s)
  | cons hd rest ih =>
    intro red s hs
    rcases List.mem_cons.mp hs with rfl | hs'
    · rw [reduceGo]
      split_ifs with h1 h2 h3
      · exact Or.inl (skipCond_mono (reduceGo_extends _ _ rest red) (Or.inl h1))
      · exact Or.inl (skipCond_mono (reduceGo_extends _ _ rest red) (Or.inr (Or.inl h2)))
      · refine Or.inl (skipCond_mono (reduceGo_extends _ _ rest red) ?_)
        obtain ⟨t, ht, hc⟩ := h3
        exact Or.inr (Or.inr ⟨t, ht, hc⟩)
      · exact Or.inr (reduceGo_extends _ _ rest _ s
          (List.mem_append.mpr (Or.inr (List.mem_singleton.mpr rfl))))
    · rw [reduceGo]
      split_ifs with h1 h2 h3
      · exact ih red s hs'
      · exact ih red s hs'
      · exact ih red s hs'
      · exact ih _ s hs'

theorem latticeTranslations_neg_closed (n : ℕ) (hn : 1 ≤ n ∧ n ≤ 7) :
    ∀ t ∈ latticeTranslations n, ∃ u ∈ latticeTranslations n,
      ∀ i, Int.fract (t i + u i) = 0 := by
  obtain ⟨h1, h7⟩ := hn
  interval_cases n <;>
    exact of_decide_eq_true (by with_unfolding_all rfl)

theorem latticeTranslations_twelfth (n : ℕ) (hn : 1 ≤ n ∧ n ≤ 7) :
    ∀ t ∈ latticeTranslations n, TwelfthVec t := by
  obtain ⟨h1, h7⟩ := hn
  interval_cases n <;>
    exact of_decide_eq_true (by with_unfolding_all rfl)

/-- Elements of the list produced by `expanded_symmetry_list reduced latt`,
unfolded: the flattened centering expansion, with inversions appended
iff `latt > 0`. -/
theorem mem_expanded (reduced : List SymmetryOperation) (latt : ℤ)
    (x : SymmetryOperation) :
    x ∈ expanded_symmetry_list reduced latt ↔
      (∃ r ∈ expandedMutatedInput reduced,
        x = r ∨ ∃ t ∈ latticeTranslations latt.natAbs, x = r.addT t) ∨
      (0 < latt ∧ ∃ y, (∃ r ∈ expandedMutatedInput reduced,
        y = r ∨ ∃ t ∈ latticeTranslations latt.natAbs, y = r.addT t) ∧
        x = y.inverted) := by
  unfold expanded_symmetry_list
  have hfull : ∀ z, z ∈ (expandedMutatedInput reduced).flatMap
      (fun s => s :: (latticeTranslations latt.natAbs).map (fun t => s.addT t)) ↔
      ∃ r ∈ expandedMutatedInput reduced,
        z = r ∨ ∃ t ∈ latticeTranslations latt.natAbs, z = r.addT t := by
    intro z
    rw [List.mem_flatMap]
    constructor
    · rintro ⟨r, hr, hz⟩
      rcases List.mem_cons.mp hz with heq | hz'
      · exact ⟨r, hr, Or.inl heq⟩
      · obtain ⟨t, ht, hzt⟩ := List.mem_map.mp hz'
        exact ⟨r, hr, Or.inr ⟨t, ht, hzt.symm⟩⟩
    · rintro ⟨r, hr, heq | ⟨t, ht, heq⟩⟩
      · rw [heq]
        exact ⟨r, hr, List.mem_cons_self _ _⟩
      · rw [heq]
        exact ⟨r, hr, List.mem_cons_of_mem _ (List.mem_map.mpr ⟨t, ht, rfl⟩)⟩
  constructor
  · intro hx
    by_cases hpos : 0 < latt
    · rw [if_pos hpos] at hx
      rcases List.mem_append.mp hx with h | h
      · exact Or.inl ((hfull x).mp h)
      · obtain ⟨y, hy, hyx⟩ := List.mem_map.mp h
        exact Or.inr ⟨hpos, y, (hfull y).mp hy, hyx.symm⟩
    · rw [if_neg hpos] at hx
      exact Or.inl ((hfull x).mp hx)
  · intro hx
    rcases hx with h | ⟨hpos, y, hy, rfl⟩
    · by_cases hpos : 0 < latt
      · rw [if_pos hpos]
        exact List.mem_append.mpr (Or.inl ((hfull x).mpr h))
      · rw [if_neg hpos]
        exact (hfull x).mpr h
    · rw [if_pos hpos]
      exact List.mem_append.mpr (Or.inr (List.mem_map.mpr ⟨y, (hfull y).mpr hy, rfl⟩))

/-- The canonical code set of an operation list (Python compares
operations by `integer_code`, so set-of-codes is set-of-operations). -/
def codeSet (l : List SymmetryOperation) : Finset ℤ := (codesOf l).toFinset

theorem identity_mem_reduced (full : List SymmetryOperation) (latt : ℤ) :
    identityOp ∈ reduced_symmetry_list full latt :=
  reduceGo_extends _ _ full [identityOp] identityOp (List.mem_singleton.mpr rfl)

theorem reduced_elems (full : List SymmetryOperation) (latt : ℤ) :
    ∀ r ∈ reduced_symmetry_list full latt, r = identityOp ∨ r ∈ full := by
  intro r hr
  rcases reduceGo_mem _ _ full [identityOp] r hr with h | h
  · exact Or.inl (List.mem_singleton.mp h)
  · exact Or.inr h

/-- C2: for a full symmetry-operation list `L` of a space group with
lattice-type code `latt` — i.e. a list of valid operations containing
the identity, closed under every lattice-centering translation for
`|latt|`, and closed under inversion when `latt > 0` (centrosymmetric)
— `reduced_symmetry_list` followed by `expanded_symmetry_list` yields a
list whose set of canonical integer encodings equals that of `L`. -/
theorem reduced_expanded_code_set (latt : ℤ) (L : List SymmetryOperation)
    (hlatt : 1 ≤ latt.natAbs ∧ latt.natAbs ≤ 7)
    (hvalid : ∀ s ∈ L, s.Valid)
    (hid : identityOp.integer_code ∈ codesOf L)
    (hT : ∀ s ∈ L, ∀ t ∈ latticeTranslations latt.natAbs,
      (s.addT t).integer_code ∈ codesOf L)
    (hinv : 0 < latt → ∀ s ∈ L, s.inverted.integer_code ∈ codesOf L) :
    codeSet (expanded_symmetry_list (reduced_symmetry_list L latt) latt) = codeSet L := by
  set T := latticeTranslations latt.natAbs with hTdef
  set R := reduced_symmetry_list L latt with hRdef
  have hTval : ∀ t ∈ T, TwelfthVec t := latticeTranslations_twelfth _ hlatt
  have hRvalid : ∀ r ∈ R, r.Valid := by
    intro r hr
    rcases reduced_elems L latt r hr with h | h
    · rw [h]
      exact identityOp_valid
    · exact hvalid r h
  have hRL : ∀ r ∈ R, r.integer_code ∈ codesOf L := by
    intro r hr
    rcases reduced_elems L latt r hr with h | h
    · rw [h]
      exact hid
    · exact List.mem_map.mpr ⟨r, h, rfl⟩
  have hrep : ∀ c ∈ codesOf L, ∃ s' ∈ L, s'.integer_code = c := by
    intro c hc
    obtain ⟨y, hy, hyc⟩ := List.mem_map.mp hc
    exact ⟨y, hy, hyc⟩
  have hrepR : ∀ {c : ℤ}, c ∈ codesOf R → ∃ r ∈ R, r.integer_code = c := by
    intro c hc
    obtain ⟨y, hy, hyc⟩ := List.mem_map.mp hc
    exact ⟨y, hy, hyc⟩
  have hR' : expandedMutatedInput R = R := by
    have hmemid : identityOp.integer_code ∈ codesOf R :=
      List.mem_map.mpr ⟨identityOp, identity_mem_reduced L latt, rfl⟩
    unfold expandedMutatedInput
    rw [if_pos hmemid]
  have hbase : ∀ y, (∃ r ∈ expandedMutatedInput R, y = r ∨ ∃ t ∈ T, y = r.addT t) →
      y.integer_code ∈ codesOf L ∧ y.Valid := by
    rintro y ⟨r, hr, hcase⟩
    rw [hR'] at hr
    rcases hcase with heq | ⟨t, ht, heq⟩
    · rw [heq]
      exact ⟨hRL r hr, hRvalid r hr⟩
    · rw [heq]
      refine ⟨?_, addT_valid (hRvalid r hr) (hTval t ht)⟩
      obtain ⟨s', hs', hsc⟩ := hrep _ (hRL r hr)
      have hre : s' = r := eq_of_code_eq (hvalid s' hs') (hRvalid r hr) hsc
      rw [← hre]
      exact hT s' hs' t ht
  have hFwd : ∀ x ∈ expanded_symmetry_list R latt, x.integer_code ∈ codesOf L := by
    intro x hx
    rcases (mem_expanded R latt x).mp hx with h | ⟨hpos, y, hy, heq⟩
    · exact (hbase x h).1
    · obtain ⟨hyL, hyval⟩ := hbase y hy
      obtain ⟨s', hs', hsc⟩ := hrep _ hyL
      have hseq : s' = y := eq_of_code_eq (hvalid s' hs') hyval hsc
      rw [heq, ← hseq]
      exact hinv hpos s' hs'
  have hmemE_base : ∀ r ∈ R, r ∈ expanded_symmetry_list R latt := by
    intro r hr
    refine (mem_expanded R latt r).mpr (Or.inl ⟨r, ?_, Or.inl rfl⟩)
    rw [hR']
    exact hr
  have hmemE_addT : ∀ r ∈ R, ∀ t ∈ T, r.addT t ∈ expanded_symmetry_list R latt := by
    intro r hr t ht
    refine (mem_expanded R latt (r.addT t)).mpr (Or.inl ⟨r, ?_, Or.inr ⟨t, ht, rfl⟩⟩)
    rw [hR']
    exact hr
  have hmemE_inv : 0 < latt → ∀ y, (∃ r ∈ R, y = r ∨ ∃ t ∈ T, y = r.addT t) →
      y.inverted ∈ expanded_symmetry_list R latt := by
    intro hpos y hy
    refine (mem_expanded R latt y.inverted).mpr (Or.inr ⟨hpos, y, ?_, rfl⟩)
    rw [hR']
    exact hy
  have hBwd : ∀ s ∈ L, s.integer_code ∈ codesOf (expanded_symmetry_list R latt) := by
    intro s hs
    have hsval := hvalid s hs
    have hproc := reduceGo_processed (decide (0 < latt)) T L [identityOp] s hs
    have hRGo : reduceGo (decide (0 < latt)) T L [identityOp] = R := rfl
    rw [hRGo] at hproc
    rcases hproc with hskip | hmem
    · rcases hskip with h | ⟨hb, h⟩ | ⟨t, ht, hcase⟩
      · obtain ⟨r, hr, hrc⟩ := hrepR h
        exact List.mem_map.mpr ⟨r, hmemE_base r hr, hrc⟩
      · have hpos : 0 < latt := of_decide_eq_true hb
        obtain ⟨r, hr, hrc⟩ := hrepR h
        have hre : r = s.inverted :=
          eq_of_code_eq (hRvalid r hr) (inverted_valid hsval) hrc
        refine List.mem_map.mpr ⟨r.inverted,
          hmemE_inv hpos r ⟨r, hr, Or.inl rfl⟩, ?_⟩
        rw [hre, inverted_inverted hsval.2]
      · rcases hcase with ⟨hb, h⟩ | h
        · have hpos : 0 < latt := of_decide_eq_true hb
          obtain ⟨r, hr, hrc⟩ := hrepR h
          have hre : r = (s.addT t).inverted :=
            eq_of_code_eq (hRvalid r hr)
              (inverted_valid (addT_valid hsval (hTval t ht))) hrc
          refine List.mem_map.mpr ⟨(r.addT t).inverted,
            hmemE_inv hpos (r.addT t) ⟨r, hr, Or.inr ⟨t, ht, rfl⟩⟩, ?_⟩
          rw [hre, inv_addT_inv hsval.2]
        · obtain ⟨r, hr, hrc⟩ := hrepR h
          have hre : r = s.addT t :=
            eq_of_code_eq (hRvalid r hr) (addT_valid hsval (hTval t ht)) hrc
          obtain ⟨u, hu, huf⟩ := latticeTranslations_neg_closed _ hlatt t ht
          refine List.mem_map.mpr ⟨r.addT u, hmemE_addT r hr u hu, ?_⟩
          rw [hre, addT_addT_cancel hsval.2 huf]
    · exact List.mem_map.mpr ⟨s, hmemE_base s hmem, rfl⟩
  apply Finset.ext
  intro c
  simp only [codeSet, List.mem_toFinset]
  constructor
  · intro hc
    obtain ⟨x, hx, hxc⟩ := List.mem_map.mp hc
    rw [← hxc]
    exact hFwd x hx
  · intro hc
    obtain ⟨s, hs, hsc⟩ := hrep c hc
    rw [← hsc]
    exact hBwd s hs

/-- Witness for C2: the centrosymmetric primitive group `{identity,
inversion centre}` with `latt = 1` (spec example: P-1 has exactly those
two operations). -/
theorem reduced_expanded_code_set_witness :
    codeSet (expanded_symmetry_list (reduced_symmetry_list [identityOp, negIdOp] 1) 1) =
      codeSet [identityOp, negIdOp] :=
  reduced_expanded_code_set 1 [identityOp, negIdOp]
    (by norm_num)
    (of_decide_eq_true (by with_unfolding_all rfl))
    (of_decide_eq_true (by with_unfolding_all rfl))
    (of_decide_eq_true (by with_unfolding_all rfl))
    (fun _ => of_decide_eq_true (by with_unfolding_all rfl))

/-- Witness for C7's universal part at the two-fold rotation `opA`. -/
theorem identity_sentinel_witness :
    (SymmetryOperation.mk (diagRot (-1) (-1) 1) (fun _ => 0)).is_identity = false :=
  identity_sentinel.2.2 (diagRot (-1) (-1) 1) (fun _ => 0)
    (by constructor
        · exact of_decide_eq_true (by with_unfolding_all rfl)
        · intro i
          exact ⟨0, by norm_num⟩)
    (by intro hc
        have := congrFun (congrFun hc.1 0) 0
        simp [diagRot, identityOp, idRot] at this)


/-! ## C8: unit-cell classification priority (`unit_cell.py`) -/

/-- numpy `allclose`/`isclose` in scalar form with the default
tolerances `rtol = 1e-5`, `atol = 1e-8`: `|a - b| ≤ atol + rtol·|b|`.
All `close(...)` calls of `unit_cell.py` reduce to this elementwise. -/
abbrev closeQ (a b : ℚ) : Prop := |a - b| ≤ 1 / 100000000 + (1 / 100000) * |b|

/-- `UnitCell.abc_equal`: `close(lengths - lengths[0], zeros(3))`. -/
abbrev abc_equal (lengths : Fin 3 → ℚ) : Prop := ∀ i, closeQ (lengths i - lengths 0) 0

/-- `UnitCell.abc_different`. -/
abbrev abc_different (lengths : Fin 3 → ℚ) : Prop :=
  ¬(closeQ (lengths 0) (lengths 1) ∨ closeQ (lengths 0) (lengths 2) ∨
    closeQ (lengths 1) (lengths 2))

/-- `UnitCell.orthogonal`: `close(abs(angles) - pi/2, zeros(3))`.
`pi` is passed explicitly: the embedding is polymorphic in the float
value of `np.pi`, which the classification logic never inspects. -/
abbrev orthogonal (pi : ℚ) (angles : Fin 3 → ℚ) : Prop :=
  ∀ i, closeQ (|angles i| - pi / 2) 0

/-- `UnitCell.angles_different`. -/
abbrev angles_different (angles : Fin 3 → ℚ) : Prop :=
  ¬(closeQ (angles 0) (angles 1) ∨ closeQ (angles 0) (angles 2) ∨
    closeQ (angles 1) (angles 2))

/-- `UnitCell.is_cubic`: all lengths equal and all angles 90°. -/
abbrev is_cubic (pi : ℚ) (lengths angles : Fin 3 → ℚ) : Prop :=
  abc_equal lengths ∧ orthogonal pi angles

/-- `UnitCell.is_rhombohedral`. -/
abbrev is_rhombohedral (pi : ℚ) (lengths angles : Fin 3 → ℚ) : Prop :=
  abc_equal lengths ∧ (∀ i, closeQ (angles i - angles 0) 0) ∧ ¬closeQ (angles 0) (pi / 2)

/-- `UnitCell.is_hexagonal`. -/
abbrev is_hexagonal (pi : ℚ) (lengths angles : Fin 3 → ℚ) : Prop :=
  closeQ (lengths 0) (lengths 1) ∧ ¬closeQ (lengths 0) (lengths 2) ∧
    closeQ (angles 0) (pi / 2) ∧ closeQ (angles 1) (pi / 2) ∧
    closeQ (angles 2) (2 * pi / 3)

/-- `UnitCell.is_tetragonal`. -/
abbrev is_tetragonal (pi : ℚ) (lengths angles : Fin 3 → ℚ) : Prop :=
  closeQ (lengths 0) (lengths 1) ∧ ¬closeQ (lengths 0) (lengths 2) ∧ orthogonal pi angles

/-- `UnitCell.is_orthorhombic`. -/
abbrev is_orthorhombic (pi : ℚ) (lengths angles : Fin 3 → ℚ) : Prop :=
  orthogonal pi angles ∧ abc_different lengths

/-- `UnitCell.is_monoclinic`. -/
abbrev is_monoclinic (lengths angles : Fin 3 → ℚ) : Prop :=
  closeQ (angles 0) (angles 2) ∧ abc_different lengths

/-- `UnitCell.set_cell_type` (unit_cell.py lines 140–175): the
`if/elif` chain assigning `cell_type`. -/
def set_cell_type (pi : ℚ) (lengths angles : Fin 3 → ℚ) : String :=
  if is_cubic pi lengths angles then "cubic"
  else if is_rhombohedral pi lengths angles then "rhombohedral"
  else if is_hexagonal pi lengths angles then "hexagonal"
  else if is_tetragonal pi lengths angles then "tetragonal"
  else if is_orthorhombic pi lengths angles then "orthorhombic"
  else if is_monoclinic lengths angles then "monoclinic"
  else "triclinic"

/-- First entry of the list whose flag holds, else the default. -/
def firstMatch (l : List (Bool × String)) (dflt : String) : String :=
  match l.find? (fun p => p.1) with
  | some p => p.2
  | none => dflt

/-- Modelled from the spec: "Cell-type classification must be
evaluated in a fixed priority order — cubic, then rhombohedral, then
hexagonal, then tetragonal, then orthorhombic, then monoclinic, else
triclinic; first match wins." -/
def spec_cell_type (pi : ℚ) (lengths angles : Fin 3 → ℚ) : String :=
  firstMatch
    [(decide (is_cubic pi lengths angles), "cubic"),
     (decide (is_rhombohedral pi lengths angles), "rhombohedral"),
     (decide (is_hexagonal pi lengths angles), "hexagonal"),
     (decide (is_tetragonal pi lengths angles), "tetragonal"),
     (decide (is_orthorhombic pi lengths angles), "orthorhombic"),
     (decide (is_monoclinic lengths angles), "monoclinic")]
    "triclinic"

/-- C8: `set_cell_type` realises exactly the spec's first-match
priority order cubic, rhombohedral, hexagonal, tetragonal,
orthorhombic, monoclinic, triclinic; in particular whenever the cubic
predicate holds the cell type is "cubic". -/
theorem set_cell_type_priority (pi : ℚ) (lengths angles : Fin 3 → ℚ) :
    set_cell_type pi lengths angles = spec_cell_type pi lengths angles ∧
    (is_cubic pi lengths angles → set_cell_type pi lengths angles = "cubic") := by
  constructor
  · unfold set_cell_type spec_cell_type firstMatch
    split_ifs with h1 h2 h3 h4 h5 h6
    · rw [decide_eq_true h1]
      rfl
    · rw [decide_eq_false h1, decide_eq_true h2]
      rfl
    · rw [decide_eq_false h1, decide_eq_false h2, decide_eq_true h3]
      rfl
    · rw [decide_eq_false h1, decide_eq_false h2, decide_eq_false h3, decide_eq_true h4]
      rfl
    · rw [decide_eq_false h1, decide_eq_false h2, decide_eq_false h3, decide_eq_false h4,
        decide_eq_true h5]
      rfl
    · rw [decide_eq_false h1, decide_eq_false h2, decide_eq_false h3, decide_eq_false h4,
        decide_eq_false h5, decide_eq_true h6]
      rfl
    · rw [decide_eq_false h1, decide_eq_false h2, decide_eq_false h3, decide_eq_false h4,
        decide_eq_false h5, decide_eq_false h6]
      rfl
  · intro hc
    unfold set_cell_type
    rw [if_pos hc]

/-- Witness for C8 at an exactly-cubic cell: unit lengths, right
angles, `pi` the usual rational stand-in. -/
theorem set_cell_type_priority_witness :
    set_cell_type (314159265358979 / 100000000000000)
      (fun _ => 1) (fun _ => 314159265358979 / 200000000000000) = "cubic" :=
  (set_cell_type_priority (314159265358979 / 100000000000000)
      (fun _ => 1) (fun _ => 314159265358979 / 200000000000000)).2
    (of_decide_eq_true (by with_unfolding_all rfl))


/-! ## Crystal.unit_cell_atoms (crystal.py lines 212–299): C5 and C6 -/

/-- `SymmetryOperation.apply` for one fractional row:
`np.dot(coords, rotation.T) + translation`. -/
def applyOp (s : SymmetryOperation) (p : Vec3) : Vec3 :=
  fun i => (∑ j : Fin 3, (s.rotation i j : ℚ) * p j) + s.translation i

/-- `SpaceGroup.apply_all_symops` (space_group.py lines 399–422): the
identity block (raw input coordinates, generator code 16484) comes
first; the remaining operations — the list with the first
identity-coded entry removed, index 0 removed if none is found — are
applied in order. -/
def apply_all_symops (symops : List SymmetryOperation) (positions : List Vec3) :
    List ℤ × List Vec3 :=
  let unity := let i := symops.findIdx (fun s => s.integer_code == 16484)
               if i < symops.length then i else 0
  let others := symops.eraseIdx unity
  (List.replicate positions.length (16484 : ℤ) ++
     others.flatMap (fun s => List.replicate positions.length s.integer_code),
   positions ++ others.flatMap (fun s => positions.map (applyOp s)))

/-- Truncation toward zero on `ℚ` (C `trunc`). -/
def ratTrunc (a : ℚ) : ℤ := if 0 ≤ a then ⌊a⌋ else ⌈a⌉

/-- `np.fmod(a, 1.0)`: the C truncated remainder `a - trunc(a)`. -/
def fmodOne (a : ℚ) : ℚ := a - ratTrunc a

/-- The coordinate wrap of `unit_cell_atoms`:
`np.fmod(uc_pos + 7.0, 1)` componentwise. -/
def wrapPos (p : Vec3) : Vec3 := fun i => fmodOne (p i + 7)

/-- Squared Euclidean distance (kept squared to stay inside `ℚ`). -/
def sqDist (p q : Vec3) : ℚ := ∑ i : Fin 3, (p i - q i) ^ 2

/-- The pairs `(i, j)` with `i < j` whose positions are within
`tolerance` of each other: the KDTree
`sparse_distance_matrix(tree, max_distance=tolerance)` entries that
survive the `if not (i < j): continue` filter of the merge loop.  The
dict iteration order of the sparse matrix is not specified by scipy;
lexicographic order is used here (the claims proved below do not
depend on it). -/
def closePairs (ps : List Vec3) (tol : ℚ) : List (ℕ × ℕ) :=
  (List.range ps.length).flatMap (fun i =>
    ((List.range ps.length).filter (fun j =>
      decide (i < j) &&
        decide (sqDist (ps.getD i (fun _ => 0)) (ps.getD j (fun _ => 0)) ≤ tol ^ 2))).map
      (fun j => (i, j)))

/-- One merge step `occupation[i] += occupation[j]; mask[j] = False`. -/
def mergeStep (st : List ℚ × List Bool) (p : ℕ × ℕ) : List ℚ × List Bool :=
  (st.1.set p.1 (st.1.getD p.1 0 + st.1.getD p.2 0), st.2.set p.2 false)

/-- The merge loop `for (i, j), d in dist.items(): ...`. -/
def mergeAll (occ : List ℚ) (mask : List Bool) (pairs : List (ℕ × ℕ)) :
    List ℚ × List Bool :=
  pairs.foldl mergeStep (occ, mask)

/-- numpy boolean-mask indexing `arr[mask]`. -/
def maskFilter {α : Type} (mask : List Bool) (l : List α) : List α :=
  ((mask.zip l).filter (fun p => p.1)).map (fun p => p.2)

/-- The arrays of the `_unit_cell_atom_dict` that the claims concern. -/
structure UnitCellAtoms where
  asym_atom : List ℕ
  frac_pos : List Vec3
  symop : List ℤ
  occupation : List ℚ

/-- `Crystal.unit_cell_atoms(tolerance)` (crystal.py lines 212–299):
tile occupations and asymmetric-unit indices over the symmetry images,
apply all operations, wrap with `np.fmod(· + 7.0, 1)`, merge close
pairs by occupancy summation, and drop the masked rows. -/
def unit_cell_atoms (symops : List SymmetryOperation) (positions : List Vec3)
    (occ : List ℚ) (tolerance : ℚ) : UnitCellAtoms :=
  let natom := positions.length
  let nsymops := symops.length
  let occupation0 := (List.replicate nsymops occ).flatten
  let asym0 := (List.range (natom * nsymops)).map (· % natom)
  let applied := apply_all_symops symops positions
  let translated := applied.2.map wrapPos
  let pairs := closePairs translated tolerance
  let merged := mergeAll occupation0 (List.replicate translated.length true) pairs
  { asym_atom := maskFilter merged.2 asym0
    frac_pos := maskFilter merged.2 translated
    symop := maskFilter merged.2 applied.1
    occupation := maskFilter merged.2 merged.1 }

theorem length_flatMap_const {α β : Type} (l : List α) (f : α → List β) (n : ℕ)
    (h : ∀ a ∈ l, (f a).length = n) : (l.flatMap f).length = l.length * n := by
  induction l with
  | nil => simp
  | cons a t ih =>
    simp only [List.flatMap_cons, List.length_append, List.length_cons]
    rw [h a (List.mem_cons_self a t), ih (fun x hx => h x (List.mem_cons_of_mem a hx))]
    ring

theorem apply_all_symops_lengths (symops : List SymmetryOperation)
    (positions : List Vec3) (hsym : symops ≠ []) :
    (apply_all_symops symops positions).1.length = positions.length * symops.length ∧
    (apply_all_symops symops positions).2.length = positions.length * symops.length := by
  have hpos : 0 < symops.length := List.length_pos.mpr hsym
  unfold apply_all_symops
  have hunity : (if symops.findIdx (fun s => s.integer_code == 16484) < symops.length
      then symops.findIdx (fun s => s.integer_code == 16484) else 0) < symops.length := by
    split_ifs with h
    · exact h
    · exact hpos
  have herase : (symops.eraseIdx _).length = symops.length - 1 :=
    List.length_eraseIdx_of_lt hunity
  obtain ⟨n, hn⟩ : ∃ n, symops.length = n + 1 := ⟨symops.length - 1, by omega⟩
  constructor
  · simp only [List.length_append, List.length_replicate]
    rw [length_flatMap_const _ _ positions.length (fun a _ => List.length_replicate _ _),
      herase, hn]
    simp only [Nat.add_sub_cancel]
    ring
  · simp only [List.length_append]
    rw [length_flatMap_const _ _ positions.length (fun a _ => List.length_map _ _),
      herase, hn]
    simp only [Nat.add_sub_cancel]
    ring

theorem maskFilter_true {α : Type} (l : List α) :
    maskFilter (List.replicate l.length true) l = l := by
  induction l with
  | nil => rfl
  | cons a t ih =>
    simp only [List.length_cons, List.replicate_succ, maskFilter] at *
    simpa [List.zip_cons_cons, List.filter_cons] using ih

theorem maskFilter_subset {α : Type} (mask : List Bool) (l : List α) :
    ∀ x ∈ maskFilter mask l, x ∈ l := by
  intro x hx
  unfold maskFilter at hx
  obtain ⟨⟨b, y⟩, hmem, hy⟩ := List.mem_map.mp hx
  have hzip := List.mem_filter.mp hmem
  cases hy
  exact (List.of_mem_zip hzip.1).2

theorem join_replicate_length (occ : List ℚ) (m : ℕ) :
    ((List.replicate m occ).flatten).length = m * occ.length := by
  induction m with
  | zero => simp
  | succ k ih =>
    simp only [List.replicate_succ, List.flatten_cons, List.length_append, ih]
    ring

theorem join_replicate_getD (occ : List ℚ) (m k : ℕ) (hk : k < m * occ.length) :
    ((List.replicate m occ).flatten).getD k 0 = occ.getD (k % occ.length) 0 := by
  induction m generalizing k with
  | zero => omega
  | succ mm ih =>
    rw [Nat.succ_mul] at hk
    simp only [List.replicate_succ, List.flatten_cons]
    by_cases hlt : k < occ.length
    · rw [List.getD_append _ _ _ _ hlt, Nat.mod_eq_of_lt hlt]
    · push_neg at hlt
      have hk' : k - occ.length < mm * occ.length := by omega
      rw [List.getD_append_right _ _ _ _ hlt, ih _ hk']
      congr 1
      have : k = occ.length + (k - occ.length) := by omega
      rw [this, Nat.add_mod_left, Nat.add_sub_cancel_left]

theorem range_map_getD {β : Type} (N k : ℕ) (f : ℕ → β) (d : β) (hk : k < N) :
    ((List.range N).map f).getD k d = f k := by
  rw [List.getD_eq_getElem _ _ (by simpa using hk), List.getElem_map, List.getElem_range]

theorem closePairs_empty (ps : List Vec3) (tol : ℚ)
    (hsep : ∀ i j, i < ps.length → j < ps.length → i ≠ j →
      sqDist (ps.getD i (fun _ => 0)) (ps.getD j (fun _ => 0)) > tol ^ 2) :
    closePairs ps tol = [] := by
  unfold closePairs
  rw [List.flatMap_eq_nil_iff]
  intro i hi
  rw [List.map_eq_nil_iff, List.filter_eq_nil_iff]
  intro j hj
  simp only [Bool.and_eq_true, decide_eq_true_eq, not_and]
  intro hij
  have hiN := List.mem_range.mp hi
  have hjN := List.mem_range.mp hj
  exact not_le.mpr (hsep i j hiN hjN (Nat.ne_of_lt hij))

/-- C5 (and its row-count half of the merge invariant): for a crystal
with no partial occupancy and no two distinct generated images within
the merge tolerance of each other, `unit_cell_atoms` keeps exactly
`nsites × len(symmetry_operations)` rows in every array and every
row's occupation equals the occupation of its originating
asymmetric-unit site. -/
theorem unit_cell_atoms_no_merge (symops : List SymmetryOperation)
    (positions : List Vec3) (occ : List ℚ) (tol : ℚ)
    (hsym : symops ≠ [])
    (hlen : occ.length = positions.length)
    (hocc : ∀ q ∈ occ, q = 1)
    (hsep : ∀ i j, i < (apply_all_symops symops positions).2.length →
      j < (apply_all_symops symops positions).2.length → i ≠ j →
      sqDist (((apply_all_symops symops positions).2.map wrapPos).getD i (fun _ => 0))
        (((apply_all_symops symops positions).2.map wrapPos).getD j (fun _ => 0))
        > tol ^ 2) :
    (unit_cell_atoms symops positions occ tol).frac_pos.length =
        positions.length * symops.length ∧
    (unit_cell_atoms symops positions occ tol).occupation.length =
        positions.length * symops.length ∧
    (unit_cell_atoms symops positions occ tol).asym_atom.length =
        positions.length * symops.length ∧
    ∀ k, k < positions.length * symops.length →
      (unit_cell_atoms symops positions occ tol).occupation.getD k 0 =
        occ.getD ((unit_cell_atoms symops positions occ tol).asym_atom.getD k 0) 0 := by
  have hL := apply_all_symops_lengths symops positions hsym
  have hmaplen : ((apply_all_symops symops positions).2.map wrapPos).length =
      positions.length * symops.length := by
    rw [List.length_map, hL.2]
  have hpairs : closePairs ((apply_all_symops symops positions).2.map wrapPos) tol = [] := by
    apply closePairs_empty
    intro i j hi hj hij
    rw [hmaplen] at hi hj
    exact hsep i j (by omega) (by omega) hij
  have hocc0len : ((List.replicate symops.length occ).flatten).length =
      positions.length * symops.length := by
    rw [join_replicate_length, hlen, Nat.mul_comm]
  have hasym0len : ((List.range (positions.length * symops.length)).map
      (· % positions.length)).length = positions.length * symops.length := by
    rw [List.length_map, List.length_range]
  unfold unit_cell_atoms
  simp only [hpairs]
  have hmerge : ∀ o m, mergeAll o m ([] : List (ℕ × ℕ)) = (o, m) := fun o m => rfl
  rw [hmerge]
  have hmask : ∀ {α : Type} (l : List α), l.length = positions.length * symops.length →
      maskFilter (List.replicate (((apply_all_symops symops positions).2.map
        wrapPos).length) true) l = l := by
    intro α l hl
    rw [hmaplen, ← hl]
    exact maskFilter_true l
  refine ⟨?_, ?_, ?_, ?_⟩
  · rw [hmask _ hmaplen, hmaplen]
  · rw [hmask _ hocc0len, hocc0len]
  · rw [hmask _ hasym0len, hasym0len]
  · intro k hk
    have hposlen : 0 < positions.length := by
      rcases Nat.eq_zero_or_pos positions.length with h0 | h0
      · rw [h0, Nat.zero_mul] at hk
        omega
      · exact h0
    have hocclen : 0 < occ.length := by omega
    have hbound : k < symops.length * occ.length := by
      have heq : symops.length * occ.length = positions.length * symops.length := by
        rw [hlen]
        ring
      omega
    rw [hmask _ hocc0len, hmask _ hasym0len, join_replicate_getD _ _ _ hbound,
      range_map_getD _ _ _ _ hk]
    have h1 : occ.getD (k % occ.length) 0 = 1 := by
      rw [List.getD_eq_getElem _ _ (Nat.mod_lt _ hocclen)]
      exact hocc _ (List.getElem_mem _)
    have h2 : occ.getD (k % positions.length) 0 = 1 := by
      rw [List.getD_eq_getElem _ _ (by rw [hlen]; exact Nat.mod_lt _ hposlen)]
      exact hocc _ (List.getElem_mem _)
    rw [h1, h2]


/-- Witness for C5: one site at `(1/4, 0, 0)`, the two operations of
P-1 (identity and inversion centre), full occupancy, default
tolerance: two rows, no merge. -/
theorem unit_cell_atoms_no_merge_witness :
    (unit_cell_atoms [identityOp, negIdOp] [![1/4, 0, 0]] [1] (1/1000)).frac_pos.length
        = 1 * 2 ∧
    (unit_cell_atoms [identityOp, negIdOp] [![1/4, 0, 0]] [1] (1/1000)).occupation.length
        = 1 * 2 ∧
    (unit_cell_atoms [identityOp, negIdOp] [![1/4, 0, 0]] [1] (1/1000)).asym_atom.length
        = 1 * 2 ∧
    ∀ k, k < 1 * 2 →
      (unit_cell_atoms [identityOp, negIdOp] [![1/4, 0, 0]] [1] (1/1000)).occupation.getD k 0
        = [(1 : ℚ)].getD
          ((unit_cell_atoms [identityOp, negIdOp] [![1/4, 0, 0]] [1]
            (1/1000)).asym_atom.getD k 0) 0 := by
  have hsep : ∀ i j,
      i < (apply_all_symops [identityOp, negIdOp] [![1/4, 0, 0]]).2.length →
      j < (apply_all_symops [identityOp, negIdOp] [![1/4, 0, 0]]).2.length → i ≠ j →
      sqDist (((apply_all_symops [identityOp, negIdOp] [![1/4, 0, 0]]).2.map
          wrapPos).getD i (fun _ => 0))
        (((apply_all_symops [identityOp, negIdOp] [![1/4, 0, 0]]).2.map
          wrapPos).getD j (fun _ => 0)) > (1/1000 : ℚ) ^ 2 := by
    have hlen2 : (apply_all_symops [identityOp, negIdOp] [![1/4, 0, 0]]).2.length = 2 :=
      of_decide_eq_true (by with_unfolding_all rfl)
    intro i j hi hj hij
    rw [hlen2] at hi hj
    interval_cases i <;> interval_cases j <;>
      first
        | omega
        | exact of_decide_eq_true (by with_unfolding_all rfl)
  exact unit_cell_atoms_no_merge [identityOp, negIdOp] [![1/4, 0, 0]] [1] (1/1000)
    (List.cons_ne_nil _ _) rfl
    (of_decide_eq_true (by with_unfolding_all rfl)) hsep

theorem fmodOne_nonneg (a : ℚ) (ha : 0 ≤ a) : fmodOne a = Int.fract a := by
  unfold fmodOne ratTrunc Int.fract
  rw [if_pos ha]

/-- C6 (amended): every component of every `frac_pos` row of
`unit_cell_atoms` lies in `[0, 1)` provided every transformed
fractional coordinate is at least `-7` — the `np.fmod(x + 7.0, 1)`
wrap only tolerates negatives down to `-7`; for coordinates below `-7`
the result is negative (see the counterexample). -/
theorem unit_cell_atoms_frac_wrapped (symops : List SymmetryOperation)
    (positions : List Vec3) (occ : List ℚ) (tol : ℚ)
    (hge : ∀ p ∈ (apply_all_symops symops positions).2, ∀ i, -7 ≤ p i) :
    ∀ p ∈ (unit_cell_atoms symops positions occ tol).frac_pos,
      ∀ i, 0 ≤ p i ∧ p i < 1 := by
  intro p hp i
  have hp2 : p ∈ (apply_all_symops symops positions).2.map wrapPos := by
    unfold unit_cell_atoms at hp
    exact maskFilter_subset _ _ p hp
  obtain ⟨q, hq, hqw⟩ := List.mem_map.mp hp2
  rw [← hqw]
  have h7 : 0 ≤ q i + 7 := by linarith [hge q hq i]
  rw [show wrapPos q i = fmodOne (q i + 7) from rfl, fmodOne_nonneg _ h7]
  exact ⟨Int.fract_nonneg _, Int.fract_lt_one _⟩

/-- Witness for the amended C6 at an ordinary in-cell site: the first
component of the first wrapped row lies in `[0, 1)`. -/
theorem unit_cell_atoms_frac_wrapped_witness :
    0 ≤ ((unit_cell_atoms [identityOp, negIdOp] [![1/4, 0, 0]] [1]
        (1/1000)).frac_pos.getD 0 (fun _ => 0)) 0 ∧
    ((unit_cell_atoms [identityOp, negIdOp] [![1/4, 0, 0]] [1]
        (1/1000)).frac_pos.getD 0 (fun _ => 0)) 0 < 1 :=
  unit_cell_atoms_frac_wrapped [identityOp, negIdOp] [![1/4, 0, 0]] [1] (1/1000)
    (of_decide_eq_true (by with_unfolding_all rfl))
    ((unit_cell_atoms [identityOp, negIdOp] [![1/4, 0, 0]] [1]
        (1/1000)).frac_pos.getD 0 (fun _ => 0))
    (of_decide_eq_true (by with_unfolding_all rfl)) 0

/-- C6 (counterexample): for the one-site P1 crystal whose asymmetric
unit sits at fractional `(-15/2, 0, 0)`, `np.fmod(-15/2 + 7.0, 1) =
-1/2`, so a `frac_pos` component is negative — the claim that every
component lies in `[0, 1)` regardless of arbitrarily negative input
coordinates is false. -/
theorem unit_cell_atoms_wrap_counterexample :
    ∃ p ∈ (unit_cell_atoms [identityOp] [![-15/2, 0, 0]] [1] (1/1000)).frac_pos,
      ¬(0 ≤ p 0 ∧ p 0 < 1) :=
  of_decide_eq_true (by with_unfolding_all rfl)


/-! ## Crystal.symmetry_unique_molecules (crystal.py lines 445–485): C4 -/

/-- The provenance a molecule carries into
`symmetry_unique_molecules`: per-atom (asymmetric-unit index,
generator symop code) — the `asymmetric_unit_atoms` and `asym_symops`
arrays of a unit-cell `Molecule`. -/
structure PyMolecule where
  atoms : List (ℕ × ℤ)

/-- `np.unique(mol.properties["asymmetric_unit_atoms"])` as a set. -/
def PyMolecule.asymSet (m : PyMolecule) : Finset ℕ := (m.atoms.map Prod.fst).toFinset

/-- The sort key `len(np.where(x.asym_symops == 16484)[0]) / len(x)`:
the fraction of atoms generated by the identity operation. -/
def identityFraction (m : PyMolecule) : ℚ :=
  ((m.atoms.countP (fun a => a.2 == 16484)) : ℚ) / (m.atoms.length : ℚ)

/-- Stable insertion of `m` into a descending-by-key sorted list:
`m` goes before the first element whose key does not exceed `m`'s, so
earlier-listed molecules keep priority on ties. -/
def insertByKeyDesc (m : PyMolecule) : List PyMolecule → List PyMolecule
  | [] => [m]
  | x :: xs =>
    if identityFraction x ≤ identityFraction m then m :: x :: xs
    else x :: insertByKeyDesc m xs

/-- Python's `sorted(uc_molecules, key=order, reverse=True)`: a stable
descending sort by `identityFraction` (insertion sort; Python's
Timsort is extensionally the same stable sort). -/
def sortByKeyDesc : List PyMolecule → List PyMolecule
  | [] => []
  | a :: rest => insertByKeyDesc a (sortByKeyDesc rest)

/-- The greedy acceptance loop of `symmetry_unique_molecules`: skip a
molecule when all its asymmetric-unit atoms are already covered
(`np.all(asym_atoms[asym_atoms_in_g])`), otherwise accept it, mark its
atoms, and stop as soon as every asymmetric-unit site is covered
(`if np.all(asym_atoms): break`). -/
def selectMolecules (n : ℕ) : Finset ℕ → List PyMolecule → List PyMolecule
  | _, [] => []
  | covered, m :: rest =>
    if m.asymSet ⊆ covered then selectMolecules n covered rest
    else if Finset.range n ⊆ covered ∪ m.asymSet then [m]
    else m :: selectMolecules n (covered ∪ m.asymSet) rest

/-- `Crystal.symmetry_unique_molecules` for a crystal with `nsites`
asymmetric-unit sites whose `unit_cell_molecules()` list is
`uc_molecules`. -/
def symmetry_unique_molecules (nsites : ℕ) (uc_molecules : List PyMolecule) :
    List PyMolecule :=
  selectMolecules nsites ∅ (sortByKeyDesc uc_molecules)

/-- The union of originating asymmetric-unit indices of a molecule
list. -/
def coveredUnion (mols : List PyMolecule) : Finset ℕ :=
  mols.foldr (fun m acc => m.asymSet ∪ acc) ∅

/-- How many of the molecules cover asymmetric-unit index `k` — the
multiplicity of `k` in the multiset union of the claim. -/
def coverCount (mols : List PyMolecule) (k : ℕ) : ℕ :=
  mols.countP (fun m => decide (k ∈ m.asymSet))

theorem coveredUnion_cons (m : PyMolecule) (l : List PyMolecule) :
    coveredUnion (m :: l) = m.asymSet ∪ coveredUnion l := rfl

theorem mem_coveredUnion (mols : List PyMolecule) (x : ℕ) :
    x ∈ coveredUnion mols ↔ ∃ m ∈ mols, x ∈ m.asymSet := by
  induction mols with
  | nil => simp [coveredUnion]
  | cons m rest ih =>
    rw [coveredUnion_cons]
    simp [Finset.mem_union, ih]

theorem insertByKeyDesc_perm (m : PyMolecule) (l : List PyMolecule) :
    (insertByKeyDesc m l).Perm (m :: l) := by
  induction l with
  | nil => exact List.Perm.refl _
  | cons x xs ih =>
    rw [insertByKeyDesc]
    split_ifs with h
    · exact List.Perm.refl _
    · exact (ih.cons x).trans (List.Perm.swap m x xs)

theorem sortByKeyDesc_perm (l : List PyMolecule) : (sortByKeyDesc l).Perm l := by
  induction l with
  | nil => exact List.Perm.refl _
  | cons a rest ih =>
    rw [sortByKeyDesc]
    exact (insertByKeyDesc_perm a (sortByKeyDesc rest)).trans (ih.cons a)

theorem coveredUnion_perm {l1 l2 : List PyMolecule} (h : l1.Perm l2) :
    coveredUnion l1 = coveredUnion l2 := by
  apply Finset.ext
  intro x
  rw [mem_coveredUnion, mem_coveredUnion]
  constructor
  · rintro ⟨m, hm, hxm⟩
    exact ⟨m, h.mem_iff.mp hm, hxm⟩
  · rintro ⟨m, hm, hxm⟩
    exact ⟨m, h.mem_iff.mpr hm, hxm⟩

theorem selectMolecules_subset (n : ℕ) :
    ∀ (l : List PyMolecule) (covered : Finset ℕ) (m : PyMolecule),
      m ∈ selectMolecules n covered l → m ∈ l := by
  intro l
  induction l with
  | nil =>
    intro covered m hm
    exact absurd hm (List.not_mem_nil m)
  | cons hd rest ih =>
    intro covered m hm
    rw [selectMolecules] at hm
    split_ifs at hm with h1 h2
    · exact List.mem_cons_of_mem _ (ih covered m hm)
    · rw [List.mem_singleton.mp hm]
      exact List.mem_cons_self _ _
    · rcases List.mem_cons.mp hm with heq | hm'
      · rw [heq]
        exact List.mem_cons_self _ _
      · exact List.mem_cons_of_mem _ (ih _ m hm')

/-- The accepted molecules, together with the already-covered set,
cover everything the candidate list covers (the loop never leaves an
index of a candidate molecule uncovered). -/
theorem selectMolecules_covers (n : ℕ) :
    ∀ (l : List PyMolecule) (covered : Finset ℕ),
      coveredUnion l ⊆ Finset.range n →
      coveredUnion l ⊆ covered ∪ coveredUnion (selectMolecules n covered l) := by
  intro l
  induction l with
  | nil =>
    intro covered _
    intro x hx
    simp [coveredUnion] at hx
  | cons m rest ih =>
    intro covered hsub
    have htail : coveredUnion rest ⊆ Finset.range n := by
      intro x hx
      exact hsub (by rw [coveredUnion_cons]; exact Finset.mem_union_right _ hx)
    rw [selectMolecules]
    split_ifs with h1 h2
    · intro x hx
      rw [coveredUnion_cons] at hx
      rcases Finset.mem_union.mp hx with hx' | hx'
      · exact Finset.mem_union_left _ (h1 hx')
      · exact ih covered htail hx'
    · intro x hx
      have hxr : x ∈ Finset.range n := hsub hx
      have hxc := h2 hxr
      rw [coveredUnion_cons, coveredUnion]
      simp only [List.foldr_cons, List.foldr_nil]
      rcases Finset.mem_union.mp hxc with hx' | hx'
      · exact Finset.mem_union_left _ hx'
      · exact Finset.mem_union_right _ (Finset.mem_union_left _ hx')
    · intro x hx
      rw [coveredUnion_cons] at hx
      rw [coveredUnion_cons]
      rcases Finset.mem_union.mp hx with hx' | hx'
      · exact Finset.mem_union_right _ (Finset.mem_union_left _ hx')
      · have := ih (covered ∪ m.asymSet) htail hx'
        rcases Finset.mem_union.mp this with h' | h'
        · rcases Finset.mem_union.mp h' with h'' | h''
          · exact Finset.mem_union_left _ h''
          · exact Finset.mem_union_right _ (Finset.mem_union_left _ h'')
        · exact Finset.mem_union_right _ (Finset.mem_union_right _ h')

/-- C4 (amended): when the unit-cell molecules jointly cover the whole
asymmetric unit, the accepted molecules of
`symmetry_unique_molecules` cover `[0, nsites)` as a *set* — but a
site may be claimed by more than one accepted molecule, so the
multiset union is not exactly-once (see the counterexample). -/
theorem symmetry_unique_molecules_cover (nsites : ℕ) (mols : List PyMolecule)
    (hcov : coveredUnion mols = Finset.range nsites) :
    coveredUnion (symmetry_unique_molecules nsites mols) = Finset.range nsites := by
  have hperm := sortByKeyDesc_perm mols
  have hsorted : coveredUnion (sortByKeyDesc mols) = Finset.range nsites := by
    rw [coveredUnion_perm hperm, hcov]
  apply Finset.Subset.antisymm
  · intro x hx
    obtain ⟨m, hm, hxm⟩ := (mem_coveredUnion _ _).mp hx
    have hmem : m ∈ sortByKeyDesc mols := selectMolecules_subset _ _ _ _ hm
    rw [← hsorted]
    exact (mem_coveredUnion _ _).mpr ⟨m, hmem, hxm⟩
  · intro x hx
    have h1 : x ∈ coveredUnion (sortByKeyDesc mols) := by rw [hsorted]; exact hx
    have h2 := selectMolecules_covers nsites (sortByKeyDesc mols) ∅
      (by rw [hsorted]) h1
    rcases Finset.mem_union.mp h2 with h | h
    · exact absurd h (Finset.not_mem_empty x)
    · exact h

/-- Witness for the amended C4 at a concrete two-molecule input. -/
theorem symmetry_unique_molecules_cover_witness :
    coveredUnion (symmetry_unique_molecules 3
      [⟨[(0, 16484), (1, 16484)]⟩, ⟨[(1, 16484), (2, 7000)]⟩]) = Finset.range 3 :=
  symmetry_unique_molecules_cover 3
    [⟨[(0, 16484), (1, 16484)]⟩, ⟨[(1, 16484), (2, 7000)]⟩]
    (of_decide_eq_true (by with_unfolding_all rfl))

/-- C4 (counterexample): molecules with asymmetric-unit atom sets
`{0, 1}` (all identity-generated) and `{1, 2}` (half
identity-generated) jointly cover `[0, 3)`; the greedy loop accepts
both — a molecule is only skipped when *all* its atoms are covered —
so site 1 is claimed by two accepted molecules and the multiset union
counts it twice, refuting the exactly-once claim. -/
theorem symmetry_unique_molecules_double_cover :
    coveredUnion (symmetry_unique_molecules 3
      [⟨[(0, 16484), (1, 16484)]⟩, ⟨[(1, 16484), (2, 7000)]⟩]) = Finset.range 3 ∧
    coverCount (symmetry_unique_molecules 3
      [⟨[(0, 16484), (1, 16484)]⟩, ⟨[(1, 16484), (2, 7000)]⟩]) 1 = 2 :=
  of_decide_eq_true (by with_unfolding_all rfl)


/-! ## Crystal.load / Crystal.save dispatch (crystal.py 1115–1131, 1316–1320): C9 -/

/-- The supported structure-file formats: the values of the
`extension_map` dicts of `Crystal.load` (`from_cif_file`,
`from_shelx_file`) and `Crystal.save` (`to_cif_file`,
`to_shelx_file`). -/
inductive LoadFormat : Type
  | cif : LoadFormat
  | res : LoadFormat
deriving DecidableEq

/-- A Python `KeyError`, carrying the missing key — what
`extension_map[extension]` raises for an unrecognised extension. -/
structure PyKeyError : Type where
  key : String
deriving DecidableEq

/-- `str.rfind(c)`: the last index of `c`, or `-1` when absent. -/
def rfindChar (c : Char) (l : List Char) : ℤ :=
  (l.foldl (fun (st : ℤ × ℤ) ch => (if ch == c then st.2 else st.1, st.2 + 1)) (-1, 0)).1

/-- `os.path.splitext(p)[-1]` for a POSIX path: the suffix from the
last `.` that lies after the last `/` and is preceded (within the
basename) by at least one non-dot character; otherwise empty. -/
def splitextExtension (p : List Char) : List Char :=
  let sepIndex := rfindChar '/' p
  let dotIndex := rfindChar '.' p
  if sepIndex < dotIndex then
    if (List.range p.length).any (fun k =>
        decide (sepIndex + 1 ≤ (k : ℤ)) && decide ((k : ℤ) < dotIndex) &&
          (p.getD k '.' != '.')) then
      p.drop dotIndex.toNat
    else []
  else []

/-- `os.path.splitext(filename)[-1].lower()` as computed by
`Crystal.load` / `Crystal.save`. -/
def fileExtension (filename : String) : String :=
  ⟨(splitextExtension filename.data).map Char.toLower⟩

/-- The `extension_map` dict keys shared by `Crystal.load` and
`Crystal.save`: `".cif"` and `".res"`. -/
def extension_map (e : String) : Option LoadFormat :=
  if e = ".cif" then some LoadFormat.cif
  else if e = ".res" then some LoadFormat.res
  else none

/-- `Crystal.load(filename)` dispatch: look the lowercased extension
up in `extension_map`; an unrecognised extension raises
`KeyError(extension)` (the bare dict lookup on line 1131). -/
def Crystal_load (filename : String) : Except PyKeyError LoadFormat :=
  match extension_map (fileExtension filename) with
  | some f => Except.ok f
  | none => Except.error ⟨fileExtension filename⟩

/-- `Crystal.save(filename)` dispatch (line 1318–1320): identical
lookup, identical failure. -/
def Crystal_save (filename : String) : Except PyKeyError LoadFormat :=
  match extension_map (fileExtension filename) with
  | some f => Except.ok f
  | none => Except.error ⟨fileExtension filename⟩

/-- Substring test, used to express "the error message mentions
unsupported format". -/
def containsSubstring (s pat : String) : Bool :=
  s.data.tails.any (fun t => pat.data.isPrefixOf t)

/-- C9 (amended): for every filename whose (lowercased, splitext)
extension is neither `".cif"` nor `".res"`, both `Crystal.load` and
`Crystal.save` fail — but by raising a bare `KeyError` carrying only
the extension, not a descriptive unsupported-format error. -/
theorem load_save_unsupported_extension (filename : String)
    (h : fileExtension filename ≠ ".cif" ∧ fileExtension filename ≠ ".res") :
    Crystal_load filename = Except.error ⟨fileExtension filename⟩ ∧
    Crystal_save filename = Except.error ⟨fileExtension filename⟩ := by
  have hmap : extension_map (fileExtension filename) = none := by
    unfold extension_map
    rw [if_neg h.1, if_neg h.2]
  constructor
  · unfold Crystal_load
    rw [hmap]
  · unfold Crystal_save
    rw [hmap]

/-- Witness for the amended C9 at `"crystal.xyz"`. -/
theorem load_save_unsupported_extension_witness :
    Crystal_load "crystal.xyz" = Except.error ⟨".xyz"⟩ ∧
    Crystal_save "crystal.xyz" = Except.error ⟨".xyz"⟩ := by
  have h := load_save_unsupported_extension "crystal.xyz"
    ⟨of_decide_eq_true (by with_unfolding_all rfl),
     of_decide_eq_true (by with_unfolding_all rfl)⟩
  have he : fileExtension "crystal.xyz" = ".xyz" :=
    of_decide_eq_true (by with_unfolding_all rfl)
  rw [he] at h
  exact h

/-- C9 (counterexample): loading or saving `"crystal.xyz"` fails with
`KeyError('.xyz')` — a payload that is just the extension and does not
mention "unsupported" or "format" at all, so the failure carries no
clear unsupported-format indication. -/
theorem load_save_keyerror_counterexample :
    Crystal_load "crystal.xyz" = Except.error ⟨".xyz"⟩ ∧
    Crystal_save "crystal.xyz" = Except.error ⟨".xyz"⟩ ∧
    containsSubstring ".xyz" "unsupported" = false ∧
    containsSubstring ".xyz" "format" = false :=
  ⟨by with_unfolding_all rfl, by with_unfolding_all rfl,
   by with_unfolding_all rfl, by with_unfolding_all rfl⟩

end Chmpy
